import Mathlib

/-!
Verification of the Aircraft Landing Problem implementation
(`aircraft_landing_problem.py`): instance representation, the
feasibility-checked cost evaluator `evaluate_solution`, the randomized
greedy constructor `random_solution`, and the file loader
`_load_instance_from_file`, shallowly embedded in Lean.

Modelling conventions:
* Python floats are modelled as rationals (`ℚ`); landing times and
  separation values are integers (`ℤ`), plane counts naturals.
* A Python function that may raise an exception is modelled as returning
  `Option _`; `none` models a raised exception (IndexError, StopIteration,
  ValueError), `some v` a normal return of `v`.
* Python list indexing `l[i]` with an `int` index is modelled by `pyGet`
  (negative indices count from the end, out-of-range raises).
* The random source is an explicit parameter: `random.shuffle` becomes a
  caller-supplied permutation of `range n`, and `random.randint` a
  caller-supplied function `draw` assumed to return a value inside the
  requested closed interval whenever that interval is nonempty.
-/

namespace AircraftLanding

/-- The per-instance data stored by `AircraftLandingProblem.__init__`:
plane count, the five per-plane arrays, and the separation matrix.
Direct construction performs no length validation, so the lists are
arbitrary. -/
structure Instance where
  nb_planes : ℕ
  earliest_time : List ℤ
  target_time : List ℤ
  latest_time : List ℤ
  earliness_cost : List ℚ
  tardiness_cost : List ℚ
  separation_time : List (List ℤ)
deriving Repr, DecidableEq

/-- A candidate solution dictionary. `solution.get("landing_order")` /
`solution.get("landing_times")` return `None` when the key is missing,
modelled by `Option`. Landing-order entries are arbitrary integers (the
evaluator must validate them). -/
structure Solution where
  landing_order : Option (List ℤ)
  landing_times : Option (List ℤ)
deriving Repr, DecidableEq

/-- The infeasibility sentinel `PENALTY = 1e9` from `evaluate_solution`. -/
def PENALTY : ℚ := 1000000000

/-- `list(range(n))` as it appears in `evaluate_solution`'s permutation
check: the integers `0, …, n-1`. -/
def rangeList (n : ℕ) : List ℤ := (List.range n).map Int.ofNat

/-- Python list indexing `l[i]` for an `int` index `i`: nonnegative
indices are positional, negative indices count from the end, and anything
out of range raises IndexError (modelled by `none`). -/
def pyGet {α : Type} (l : List α) (i : ℤ) : Option α :=
  if 0 ≤ i then l[i.toNat]?
  else if -(l.length : ℤ) ≤ i then l[(i + l.length).toNat]?
  else none

/-- Outcome of one iteration (or of the remaining iterations) of the
window-check-and-cost loop of `evaluate_solution`: an exception, an early
`return PENALTY`, or a cost contribution. -/
inductive PosRes where
  | exn : PosRes
  | penalty : PosRes
  | cost : ℚ → PosRes
deriving Repr, DecidableEq

/-- One iteration of the first loop of `evaluate_solution` (lines 97–107
of the source) at position `p`: look up the plane and its landing time,
reject (`PENALTY`) if the time is outside `[earliest, latest]`, otherwise
produce the earliness/tardiness cost contribution. Lookups follow the
source's evaluation order, so an IndexError (`.exn`) preempts later
checks. -/
def posEval (inst : Instance) (order times : List ℤ) (p : ℕ) : PosRes :=
  match order[p]?, times[p]? with
  | some plane, some lt =>
    match pyGet inst.earliest_time plane with
    | none => .exn
    | some e =>
      if lt < e then .penalty
      else
        match pyGet inst.latest_time plane with
        | none => .exn
        | some l =>
          if lt > l then .penalty
          else
            match pyGet inst.target_time plane with
            | none => .exn
            | some t =>
              if lt < t then
                match pyGet inst.earliness_cost plane with
                | none => .exn
                | some ec => .cost (((t - lt : ℤ) : ℚ) * ec)
              else
                match pyGet inst.tardiness_cost plane with
                | none => .exn
                | some tc => .cost (((lt - t : ℤ) : ℚ) * tc)
  | _, _ => .exn

/-- The first loop of `evaluate_solution` over a list of positions:
the first exception or early return wins; otherwise the cost
contributions are accumulated. -/
def costLoop (inst : Instance) (order times : List ℤ) : List ℕ → PosRes
  | [] => .cost 0
  | p :: rest =>
    match posEval inst order times p with
    | .exn => .exn
    | .penalty => .penalty
    | .cost c =>
      match costLoop inst order times rest with
      | .exn => .exn
      | .penalty => .penalty
      | .cost c' => .cost (c + c')

/-- One iteration of the separation loop of `evaluate_solution` (lines
110–115) at position `p ≥ 1`: `none` models an IndexError, `some true` a
separation violation (early `return PENALTY`), `some false` success. -/
def sepEval (inst : Instance) (order times : List ℤ) (p : ℕ) : Option Bool :=
  match order[p-1]?, order[p]?, times[p-1]?, times[p]? with
  | some prev, some cur, some pt, some ct =>
    match pyGet inst.separation_time prev with
    | none => none
    | some row =>
      match pyGet row cur with
      | none => none
      | some s => some (decide (ct < pt + s))
  | _, _, _, _ => none

/-- The separation loop of `evaluate_solution` over a list of positions. -/
def sepLoop (inst : Instance) (order times : List ℤ) : List ℕ → Option Bool
  | [] => some false
  | p :: rest =>
    match sepEval inst order times p with
    | none => none
    | some true => some true
    | some false => sepLoop inst order times rest

/-- `AircraftLandingProblem.evaluate_solution`. Returns `some cost` when
the Python function returns normally (`cost` being `PENALTY` for an
infeasible candidate) and `none` when it raises an exception.
`sorted(landing_order)` is modelled by `List.insertionSort`, and
`list(range(n))` by `(List.range n).map Int.ofNat`. -/
def evaluate_solution (inst : Instance) (sol : Solution) : Option ℚ :=
  match sol.landing_order, sol.landing_times with
  | some order, some times =>
    if order.length ≠ inst.nb_planes ∨ times.length ≠ inst.nb_planes then
      some PENALTY
    else if order.insertionSort (· ≤ ·) ≠ rangeList inst.nb_planes then
      some PENALTY
    else
      match costLoop inst order times (List.range inst.nb_planes) with
      | .exn => none
      | .penalty => some PENALTY
      | .cost c =>
        match sepLoop inst order times (List.range' 1 (inst.nb_planes - 1)) with
        | none => none
        | some true => some PENALTY
        | some false => some c
  | _, _ => some PENALTY

/-- Length consistency of an `Instance` with its declared plane count, as
described by the data model: all five per-plane arrays and the separation
matrix have length `nb_planes`, and every separation row as well. Direct
construction does not enforce this; it is the well-formedness assumption
under which evaluation is exception-free. -/
def WF (inst : Instance) : Prop :=
  inst.earliest_time.length = inst.nb_planes ∧
  inst.target_time.length = inst.nb_planes ∧
  inst.latest_time.length = inst.nb_planes ∧
  inst.earliness_cost.length = inst.nb_planes ∧
  inst.tardiness_cost.length = inst.nb_planes ∧
  inst.separation_time.length = inst.nb_planes ∧
  ∀ row ∈ inst.separation_time, row.length = inst.nb_planes

instance (inst : Instance) : Decidable (WF inst) := by
  unfold WF; infer_instance

/-- The plane scheduled at position `p` of the order, as a natural index
(meaningful once the order is a valid permutation of `[0, n)`). -/
def planeAt (order : List ℤ) (p : ℕ) : ℕ := (order.getD p 0).toNat

/-- The landing time assigned to position `p`. -/
def timeAt (times : List ℤ) (p : ℕ) : ℤ := times.getD p 0

/-- Position `p`'s landing time lies inside its plane's window
`[earliest_time, latest_time]` — the condition whose failure makes the
first loop of `evaluate_solution` return `PENALTY`. -/
def WindowOK (inst : Instance) (order times : List ℤ) (p : ℕ) : Prop :=
  inst.earliest_time.getD (planeAt order p) 0 ≤ timeAt times p ∧
  timeAt times p ≤ inst.latest_time.getD (planeAt order p) 0

instance (inst : Instance) (order times : List ℤ) (p : ℕ) :
    Decidable (WindowOK inst order times p) := by
  unfold WindowOK; infer_instance

/-- The separation requirement between consecutive positions `p-1` and
`p`: the landing at `p` is no earlier than the landing at `p-1` plus the
required separation `separation_time[prev][cur]`. -/
def SepOK (inst : Instance) (order times : List ℤ) (p : ℕ) : Prop :=
  timeAt times (p-1) +
    (inst.separation_time.getD (planeAt order (p-1)) []).getD (planeAt order p) 0 ≤
  timeAt times p

instance (inst : Instance) (order times : List ℤ) (p : ℕ) :
    Decidable (SepOK inst order times p) := by
  unfold SepOK; infer_instance

/-- The earliness/tardiness penalty contributed by position `p`:
`(target - lt) * earliness_cost` when early, `(lt - target) *
tardiness_cost` otherwise. -/
def posCost (inst : Instance) (order times : List ℤ) (p : ℕ) : ℚ :=
  let plane := planeAt order p
  let lt := timeAt times p
  let t := inst.target_time.getD plane 0
  if lt < t then ((t - lt : ℤ) : ℚ) * inst.earliness_cost.getD plane 0
  else ((lt - t : ℤ) : ℚ) * inst.tardiness_cost.getD plane 0

/-- Total earliness/tardiness penalty of a candidate, summed over all
positions. -/
def totalCost (inst : Instance) (order times : List ℤ) : ℚ :=
  ((List.range inst.nb_planes).map (posCost inst order times)).sum

/-- `pyGet` at a nonnegative index is plain positional lookup. -/
lemma pyGet_nonneg {α : Type} (l : List α) {i : ℤ} (h : 0 ≤ i) :
    pyGet l i = l[i.toNat]? := by
  simp [pyGet, h]

/-- Membership in `rangeList n` means being one of the integers
`0, …, n-1`. -/
lemma mem_rangeList {n : ℕ} {x : ℤ} :
    x ∈ rangeList n ↔ 0 ≤ x ∧ x.toNat < n := by
  unfold rangeList
  simp only [List.mem_map, List.mem_range]
  constructor
  · rintro ⟨k, hk, rfl⟩
    exact ⟨Int.ofNat_nonneg k, by simpa using hk⟩
  · rintro ⟨h0, hlt⟩
    exact ⟨x.toNat, hlt, Int.toNat_of_nonneg h0⟩

/-- `rangeList n` is sorted with respect to `≤`. -/
lemma sorted_rangeList (n : ℕ) : List.Sorted (· ≤ ·) (rangeList n) := by
  unfold rangeList List.Sorted
  rw [List.pairwise_map]
  exact (List.pairwise_lt_range n).imp
    (fun h => Int.ofNat_le.mpr (le_of_lt h))

/-- The permutation check of `evaluate_solution` — `sorted(landing_order)
== list(range(n))` — holds exactly when the order is a permutation of
`[0, n)`. -/
lemma sort_eq_iff_perm {order : List ℤ} {n : ℕ} :
    order.insertionSort (· ≤ ·) = rangeList n ↔ order.Perm (rangeList n) := by
  constructor
  · intro h
    exact ((List.perm_insertionSort (· ≤ ·) order).symm.trans (h ▸ List.Perm.refl _))
  · intro h
    exact List.eq_of_perm_of_sorted
      ((List.perm_insertionSort (· ≤ ·) order).trans h)
      (List.sorted_insertionSort (· ≤ ·) order)
      (sorted_rangeList n)

/-- Successful positional lookup expressed through `getD`. -/
lemma lookup_getD {α : Type} (l : List α) (d : α) {k : ℕ} (hk : k < l.length) :
    l[k]? = some (l.getD k d) := by
  rw [List.getD_eq_getElem l d hk, List.getElem?_eq_getElem hk]

/-- On a length-consistent instance, with a valid order, one iteration of
the window/cost loop either rejects (window violated) or contributes
exactly `posCost`. -/
lemma posEval_eq {inst : Instance} {order times : List ℤ} {p : ℕ}
    (hWF : WF inst)
    (ho : order.length = inst.nb_planes) (ht : times.length = inst.nb_planes)
    (hmem : ∀ x ∈ order, 0 ≤ x ∧ x.toNat < inst.nb_planes)
    (hp : p < inst.nb_planes) :
    posEval inst order times p =
      if WindowOK inst order times p then PosRes.cost (posCost inst order times p)
      else PosRes.penalty := by
  obtain ⟨hE, hT, hL, hEC, hTC, hS, hRows⟩ := hWF
  have hpo : p < order.length := ho ▸ hp
  have hpt : p < times.length := ht ▸ hp
  have hord : order[p]? = some (order.getD p 0) := lookup_getD order 0 hpo
  have htim : times[p]? = some (times.getD p 0) := lookup_getD times 0 hpt
  have hmemp : 0 ≤ order.getD p 0 ∧ (order.getD p 0).toNat < inst.nb_planes := by
    apply hmem
    rw [List.getD_eq_getElem _ _ hpo]
    exact List.getElem_mem hpo
  have hge : pyGet inst.earliest_time (order.getD p 0) =
      some (inst.earliest_time.getD (planeAt order p) 0) := by
    rw [pyGet_nonneg _ hmemp.1]
    exact lookup_getD _ 0 (by rw [hE]; exact hmemp.2)
  have hgl : pyGet inst.latest_time (order.getD p 0) =
      some (inst.latest_time.getD (planeAt order p) 0) := by
    rw [pyGet_nonneg _ hmemp.1]
    exact lookup_getD _ 0 (by rw [hL]; exact hmemp.2)
  have hgt : pyGet inst.target_time (order.getD p 0) =
      some (inst.target_time.getD (planeAt order p) 0) := by
    rw [pyGet_nonneg _ hmemp.1]
    exact lookup_getD _ 0 (by rw [hT]; exact hmemp.2)
  have hgec : pyGet inst.earliness_cost (order.getD p 0) =
      some (inst.earliness_cost.getD (planeAt order p) 0) := by
    rw [pyGet_nonneg _ hmemp.1]
    exact lookup_getD _ 0 (by rw [hEC]; exact hmemp.2)
  have hgtc : pyGet inst.tardiness_cost (order.getD p 0) =
      some (inst.tardiness_cost.getD (planeAt order p) 0) := by
    rw [pyGet_nonneg _ hmemp.1]
    exact lookup_getD _ 0 (by rw [hTC]; exact hmemp.2)
  simp only [posEval, hord, htim, hge, hgl, hgt, hgec, hgtc]
  simp only [WindowOK, posCost, timeAt]
  split_ifs with h1 h2 h3 h4 h5 h6 h7 <;> first | rfl | (exfalso; omega)

/-- The full window/cost loop over any list of in-range positions:
it rejects exactly when some listed position violates its window, and
otherwise accumulates the positions' costs. -/
lemma costLoop_eq {inst : Instance} {order times : List ℤ}
    (hWF : WF inst)
    (ho : order.length = inst.nb_planes) (ht : times.length = inst.nb_planes)
    (hmem : ∀ x ∈ order, 0 ≤ x ∧ x.toNat < inst.nb_planes)
    (ps : List ℕ) (hps : ∀ p ∈ ps, p < inst.nb_planes) :
    costLoop inst order times ps =
      if ∀ p ∈ ps, WindowOK inst order times p
      then PosRes.cost ((ps.map (posCost inst order times)).sum)
      else PosRes.penalty := by
  induction ps with
  | nil => simp [costLoop]
  | cons p rest ih =>
    have hp : p < inst.nb_planes := hps p (List.mem_cons_self p rest)
    have hrest : ∀ q ∈ rest, q < inst.nb_planes :=
      fun q hq => hps q (List.mem_cons_of_mem p hq)
    rw [costLoop, posEval_eq hWF ho ht hmem hp, ih hrest]
    by_cases hw : WindowOK inst order times p
    · by_cases hall : ∀ q ∈ rest, WindowOK inst order times q
      · have hboth : ∀ q ∈ p :: rest, WindowOK inst order times q := by
          intro q hq
          rcases List.mem_cons.mp hq with h | h
          · exact h ▸ hw
          · exact hall q h
        rw [if_pos hw, if_pos hall, if_pos hboth]
        simp
      · have hnot : ¬ ∀ q ∈ p :: rest, WindowOK inst order times q := by
          intro hcon
          exact hall (fun q hq => hcon q (List.mem_cons_of_mem p hq))
        rw [if_pos hw, if_neg hall, if_neg hnot]
    · have hnot : ¬ ∀ q ∈ p :: rest, WindowOK inst order times q := by
        intro hcon
        exact hw (hcon p (List.mem_cons_self p rest))
      rw [if_neg hw, if_neg hnot]

/-- On a length-consistent instance, with a valid order, one iteration of
the separation loop reports exactly whether the separation requirement
between positions `p-1` and `p` fails. -/
lemma sepEval_eq {inst : Instance} {order times : List ℤ} {p : ℕ}
    (hWF : WF inst)
    (ho : order.length = inst.nb_planes) (ht : times.length = inst.nb_planes)
    (hmem : ∀ x ∈ order, 0 ≤ x ∧ x.toNat < inst.nb_planes)
    (hp1 : 1 ≤ p) (hp : p < inst.nb_planes) :
    sepEval inst order times p = some (decide (¬ SepOK inst order times p)) := by
  obtain ⟨hE, hT, hL, hEC, hTC, hS, hRows⟩ := hWF
  have hpo : p < order.length := ho ▸ hp
  have hpt : p < times.length := ht ▸ hp
  have hpo' : p - 1 < order.length := lt_of_le_of_lt (Nat.sub_le p 1) hpo
  have hpt' : p - 1 < times.length := lt_of_le_of_lt (Nat.sub_le p 1) hpt
  have hordp : order[p]? = some (order.getD p 0) := lookup_getD order 0 hpo
  have hordp' : order[p-1]? = some (order.getD (p-1) 0) := lookup_getD order 0 hpo'
  have htimp : times[p]? = some (times.getD p 0) := lookup_getD times 0 hpt
  have htimp' : times[p-1]? = some (times.getD (p-1) 0) := lookup_getD times 0 hpt'
  have hmemp : 0 ≤ order.getD p 0 ∧ (order.getD p 0).toNat < inst.nb_planes := by
    apply hmem
    rw [List.getD_eq_getElem _ _ hpo]
    exact List.getElem_mem hpo
  have hmemp' : 0 ≤ order.getD (p-1) 0 ∧ (order.getD (p-1) 0).toNat < inst.nb_planes := by
    apply hmem
    rw [List.getD_eq_getElem _ _ hpo']
    exact List.getElem_mem hpo'
  have hrowlt : planeAt order (p-1) < inst.separation_time.length := by
    rw [hS]; exact hmemp'.2
  have hrow : pyGet inst.separation_time (order.getD (p-1) 0) =
      some (inst.separation_time.getD (planeAt order (p-1)) []) := by
    rw [pyGet_nonneg _ hmemp'.1]
    exact lookup_getD _ [] hrowlt
  have hrowlen : (inst.separation_time.getD (planeAt order (p-1)) []).length =
      inst.nb_planes := by
    rw [List.getD_eq_getElem _ _ hrowlt]
    exact hRows _ (List.getElem_mem hrowlt)
  have hsep : pyGet (inst.separation_time.getD (planeAt order (p-1)) []) (order.getD p 0) =
      some ((inst.separation_time.getD (planeAt order (p-1)) []).getD (planeAt order p) 0) := by
    rw [pyGet_nonneg _ hmemp.1]
    exact lookup_getD _ 0 (by rw [hrowlen]; exact hmemp.2)
  simp only [sepEval, hordp, hordp', htimp, htimp', hrow, hsep]
  congr 1
  rw [decide_eq_decide]
  unfold SepOK timeAt
  omega

/-- The full separation loop over any list of in-range positions:
it reports a violation exactly when some listed pair's separation
requirement fails. -/
lemma sepLoop_eq {inst : Instance} {order times : List ℤ}
    (hWF : WF inst)
    (ho : order.length = inst.nb_planes) (ht : times.length = inst.nb_planes)
    (hmem : ∀ x ∈ order, 0 ≤ x ∧ x.toNat < inst.nb_planes)
    (ps : List ℕ) (hps : ∀ p ∈ ps, 1 ≤ p ∧ p < inst.nb_planes) :
    sepLoop inst order times ps =
      if ∀ p ∈ ps, SepOK inst order times p then some false else some true := by
  induction ps with
  | nil => simp [sepLoop]
  | cons p rest ih =>
    have hp := hps p (List.mem_cons_self p rest)
    have hrest : ∀ q ∈ rest, 1 ≤ q ∧ q < inst.nb_planes :=
      fun q hq => hps q (List.mem_cons_of_mem p hq)
    rw [sepLoop, sepEval_eq hWF ho ht hmem hp.1 hp.2, ih hrest]
    by_cases hs : SepOK inst order times p
    · simp only [hs, not_true_eq_false, decide_False]
      by_cases hall : ∀ q ∈ rest, SepOK inst order times q
      · have hboth : ∀ q ∈ p :: rest, SepOK inst order times q := by
          intro q hq
          rcases List.mem_cons.mp hq with h | h
          · exact h ▸ hs
          · exact hall q h
        rw [if_pos hall, if_pos hboth]
      · have hnot : ¬ ∀ q ∈ p :: rest, SepOK inst order times q := by
          intro hcon
          exact hall (fun q hq => hcon q (List.mem_cons_of_mem p hq))
        rw [if_neg hall, if_neg hnot]
    · have hnot : ¬ ∀ q ∈ p :: rest, SepOK inst order times q := by
        intro hcon
        exact hs (hcon p (List.mem_cons_self p rest))
      simp only [hs, not_false_eq_true, decide_True]
      rw [if_neg hnot]

/-- Master characterization of `evaluate_solution` on a length-consistent
instance and a structurally valid candidate (true permutation, aligned
times): the result is the accumulated cost when all windows and
separations hold, and `PENALTY` otherwise — never an exception. -/
lemma evaluate_char {inst : Instance} {order times : List ℤ}
    (hWF : WF inst)
    (hperm : order.Perm (rangeList inst.nb_planes))
    (ht : times.length = inst.nb_planes) :
    evaluate_solution inst ⟨some order, some times⟩ =
      if ∀ p < inst.nb_planes, WindowOK inst order times p then
        if ∀ p < inst.nb_planes, 1 ≤ p → SepOK inst order times p then
          some (totalCost inst order times)
        else some PENALTY
      else some PENALTY := by
  have ho : order.length = inst.nb_planes := by
    have := hperm.length_eq
    simpa [rangeList] using this
  have hmem : ∀ x ∈ order, 0 ≤ x ∧ x.toNat < inst.nb_planes := by
    intro x hx
    exact mem_rangeList.mp (hperm.mem_iff.mp hx)
  have hsort : order.insertionSort (· ≤ ·) = rangeList inst.nb_planes :=
    sort_eq_iff_perm.mpr hperm
  have hlen : ¬ (order.length ≠ inst.nb_planes ∨ times.length ≠ inst.nb_planes) := by
    push_neg
    exact ⟨ho, ht⟩
  simp only [evaluate_solution]
  rw [if_neg hlen, if_neg (by simp [hsort])]
  rw [costLoop_eq hWF ho ht hmem (List.range inst.nb_planes)
    (fun p hp => List.mem_range.mp hp)]
  rw [sepLoop_eq hWF ho ht hmem (List.range' 1 (inst.nb_planes - 1))
    (fun p hp => by
      have := List.mem_range'_1.mp hp
      omega)]
  have hwiff : (∀ p ∈ List.range inst.nb_planes, WindowOK inst order times p) ↔
      (∀ p < inst.nb_planes, WindowOK inst order times p) := by
    constructor
    · intro h p hp
      exact h p (List.mem_range.mpr hp)
    · intro h p hp
      exact h p (List.mem_range.mp hp)
  have hsiff : (∀ p ∈ List.range' 1 (inst.nb_planes - 1), SepOK inst order times p) ↔
      (∀ p < inst.nb_planes, 1 ≤ p → SepOK inst order times p) := by
    constructor
    · intro h p hp hp1
      apply h p
      apply List.mem_range'_1.mpr
      omega
    · intro h p hp
      have := List.mem_range'_1.mp hp
      exact h p (by omega) this.1
  by_cases hw : ∀ p < inst.nb_planes, WindowOK inst order times p
  · rw [if_pos (hwiff.mpr hw), if_pos hw]
    by_cases hsep : ∀ p < inst.nb_planes, 1 ≤ p → SepOK inst order times p
    · rw [if_pos (hsiff.mpr hsep), if_pos hsep]
      rfl
    · rw [if_neg (fun hcon => hsep (hsiff.mp hcon)), if_neg hsep]
  · rw [if_neg (fun hcon => hw (hwiff.mp hcon)), if_neg hw]

/-- C2: for every instance (no consistency assumption needed — these
checks run before any instance array is touched) and every candidate
whose `landing_order` or `landing_times` is missing, or has length other
than `nb_planes`, or whose `landing_order` is not a permutation of
`[0, nb_planes)`, `evaluate_solution` returns the infeasibility sentinel
`1e9`. -/
theorem claim_C2 (inst : Instance) (sol : Solution)
    (h : sol.landing_order = none ∨ sol.landing_times = none ∨
      ∃ order times, sol.landing_order = some order ∧ sol.landing_times = some times ∧
        (order.length ≠ inst.nb_planes ∨ times.length ≠ inst.nb_planes ∨
          ¬ order.Perm (rangeList inst.nb_planes))) :
    evaluate_solution inst sol = some PENALTY := by
  obtain ⟨lo, lts⟩ := sol
  rcases h with h | h | ⟨order, times, h1, h2, h3⟩
  · simp only at h
    subst h
    rfl
  · simp only at h
    subst h
    cases lo <;> rfl
  · simp only at h1 h2
    subst h1
    subst h2
    simp only [evaluate_solution]
    by_cases hlen : order.length ≠ inst.nb_planes ∨ times.length ≠ inst.nb_planes
    · rw [if_pos hlen]
    · rw [if_neg hlen]
      push_neg at hlen
      rcases h3 with h | h | hperm
      · exact absurd hlen.1 h
      · exact absurd hlen.2 h
      · rw [if_pos (fun he => hperm (sort_eq_iff_perm.mp he))]

/-- Witness for C2: a two-plane instance and a candidate whose
landing order `[0, 0]` has a duplicate, evaluated to the sentinel. -/
theorem claim_C2_witness :
    evaluate_solution ⟨2, [0, 0], [5, 5], [20, 20], [1, 1], [1, 1], [[0, 0], [0, 0]]⟩
      ⟨some [0, 0], some [5, 5]⟩ = some PENALTY :=
  claim_C2 _ _ (Or.inr (Or.inr ⟨[0, 0], [5, 5], rfl, rfl,
    Or.inr (Or.inr (by decide))⟩))

/-- C3: on a length-consistent instance, for every structurally valid
candidate, if any position's landing time falls outside its plane's
window `[earliest_time, latest_time]`, `evaluate_solution` returns the
sentinel. -/
theorem claim_C3 (inst : Instance) (order times : List ℤ)
    (hWF : WF inst)
    (hperm : order.Perm (rangeList inst.nb_planes))
    (ht : times.length = inst.nb_planes)
    (p : ℕ) (hp : p < inst.nb_planes)
    (hviol : timeAt times p < inst.earliest_time.getD (planeAt order p) 0 ∨
      inst.latest_time.getD (planeAt order p) 0 < timeAt times p) :
    evaluate_solution inst ⟨some order, some times⟩ = some PENALTY := by
  rw [evaluate_char hWF hperm ht]
  rw [if_neg]
  intro hall
  have := hall p hp
  unfold WindowOK at this
  rcases hviol with h | h
  · exact absurd this.1 (not_le.mpr h)
  · exact absurd this.2 (not_le.mpr h)

/-- Witness for C3: one plane with window `[0, 20]` and target `10`,
landing at `25` (past `latest_time`), evaluated to the sentinel. -/
theorem claim_C3_witness :
    evaluate_solution ⟨1, [0], [10], [20], [2], [3], [[0]]⟩
      ⟨some [0], some [25]⟩ = some PENALTY :=
  claim_C3 _ [0] [25] (by decide) (by decide) (by decide) 0 (by decide)
    (Or.inr (by decide))

/-- C4: on a length-consistent instance, for every structurally valid
candidate whose landing times all lie within their planes' windows, a
violated separation requirement between any consecutive pair of
positions makes `evaluate_solution` return the sentinel, discarding the
earliness/tardiness cost accumulated by the preceding loop. -/
theorem claim_C4 (inst : Instance) (order times : List ℤ)
    (hWF : WF inst)
    (hperm : order.Perm (rangeList inst.nb_planes))
    (ht : times.length = inst.nb_planes)
    (hwin : ∀ p < inst.nb_planes, WindowOK inst order times p)
    (p : ℕ) (hp1 : 1 ≤ p) (hp : p < inst.nb_planes)
    (hviol : timeAt times p < timeAt times (p-1) +
      (inst.separation_time.getD (planeAt order (p-1)) []).getD (planeAt order p) 0) :
    evaluate_solution inst ⟨some order, some times⟩ = some PENALTY := by
  rw [evaluate_char hWF hperm ht, if_pos hwin, if_neg]
  intro hall
  have := hall p hp hp1
  unfold SepOK at this
  omega

/-- Witness for C4: two planes landing in order `[0, 1]` at times `5`
and `7`, with required separation `10` — the separation check fails and
the sentinel is returned. -/
theorem claim_C4_witness :
    evaluate_solution ⟨2, [0, 0], [5, 5], [20, 20], [1, 1], [1, 1], [[0, 10], [10, 0]]⟩
      ⟨some [0, 1], some [5, 7]⟩ = some PENALTY :=
  claim_C4 _ [0, 1] [5, 7] (by decide) (by decide) (by decide)
    (by decide) 1 (by decide) (by decide) (by decide)

/-- C5: on a length-consistent instance of any size (including zero
planes), a structurally valid candidate that lands every plane exactly
on its target time, inside all windows and with all separation
requirements met, evaluates to exactly `0`. -/
theorem claim_C5 (inst : Instance) (order times : List ℤ)
    (hWF : WF inst)
    (hperm : order.Perm (rangeList inst.nb_planes))
    (ht : times.length = inst.nb_planes)
    (htarget : ∀ p < inst.nb_planes,
      timeAt times p = inst.target_time.getD (planeAt order p) 0)
    (hwin : ∀ p < inst.nb_planes, WindowOK inst order times p)
    (hsep : ∀ p < inst.nb_planes, 1 ≤ p → SepOK inst order times p) :
    evaluate_solution inst ⟨some order, some times⟩ = some 0 := by
  rw [evaluate_char hWF hperm ht, if_pos hwin, if_pos hsep]
  congr 1
  apply List.sum_eq_zero
  intro x hx
  rcases List.mem_map.mp hx with ⟨p, hpmem, rfl⟩
  have hp := List.mem_range.mp hpmem
  have hteq := htarget p hp
  unfold posCost
  rw [hteq]
  simp

/-- Witness for C5: two planes, each landing exactly on its target with
ample separation, evaluating to cost `0`. -/
theorem claim_C5_witness :
    evaluate_solution ⟨2, [0, 0], [5, 30], [40, 40], [2, 2], [3, 3], [[0, 10], [10, 0]]⟩
      ⟨some [0, 1], some [5, 30]⟩ = some 0 :=
  claim_C5 _ [0, 1] [5, 30] (by decide) (by decide) (by decide)
    (by decide) (by decide) (by decide)

/-- C1 counterexample: an instance whose `earliest_time` array is
shorter than `nb_planes` (direct construction accepts it) makes
`evaluate_solution` raise an IndexError (modelled by `none`) on a
structurally valid candidate, instead of returning the sentinel: the
evaluator is not total on inconsistent instances. -/
theorem claim_C1_counterexample :
    evaluate_solution ⟨1, [], [0], [10], [1], [1], [[0]]⟩
      ⟨some [0], some [0]⟩ = none := by
  rfl

/-- C1 (amended): on instances whose per-plane arrays are consistent in
length with `nb_planes`, `evaluate_solution` is total — every candidate,
however nonsensical, yields a numeric cost (`some` value), with every
anomaly reported as the sentinel rather than a raised failure; on
length-inconsistent instances the evaluator can instead raise. -/
theorem claim_C1 (inst : Instance) (sol : Solution) (hWF : WF inst) :
    ∃ c : ℚ, evaluate_solution inst sol = some c := by
  obtain ⟨lo, lts⟩ := sol
  match lo, lts with
  | none, lts => exact ⟨PENALTY, by cases lts <;> rfl⟩
  | some order, none => exact ⟨PENALTY, rfl⟩
  | some order, some times =>
    by_cases hlen : order.length ≠ inst.nb_planes ∨ times.length ≠ inst.nb_planes
    · exact ⟨PENALTY, by simp only [evaluate_solution]; rw [if_pos hlen]⟩
    · push_neg at hlen
      by_cases hsort : order.insertionSort (· ≤ ·) = rangeList inst.nb_planes
      · have hperm := sort_eq_iff_perm.mp hsort
        rw [evaluate_char hWF hperm hlen.2]
        by_cases hw : ∀ p < inst.nb_planes, WindowOK inst order times p
        · by_cases hs : ∀ p < inst.nb_planes, 1 ≤ p → SepOK inst order times p
          · exact ⟨totalCost inst order times, by rw [if_pos hw, if_pos hs]⟩
          · exact ⟨PENALTY, by rw [if_pos hw, if_neg hs]⟩
        · exact ⟨PENALTY, by rw [if_neg hw]⟩
      · refine ⟨PENALTY, ?_⟩
        simp only [evaluate_solution]
        rw [if_neg (by push_neg; exact hlen), if_pos hsort]

/-- Witness for C1 (amended): a consistent one-plane instance evaluated
on a nonsense candidate still returns a numeric cost. -/
theorem claim_C1_witness :
    ∃ c : ℚ, evaluate_solution ⟨1, [0], [10], [20], [2], [3], [[0]]⟩
      ⟨some [7, 7], some []⟩ = some c :=
  claim_C1 _ _ (by decide)

/-- A list sum over `List.range` is the corresponding `Finset.range`
sum. -/
lemma range_map_sum (f : ℕ → ℚ) (n : ℕ) :
    ((List.range n).map f).sum = ∑ p ∈ Finset.range n, f p := by
  induction n with
  | zero => simp
  | succ m ih =>
    rw [List.range_succ, List.map_append, List.sum_append, Finset.sum_range_succ, ih]
    simp

/-- Changing a function at one point of `Finset.range n` changes its sum
by the difference at that point. -/
lemma sum_range_update (n q : ℕ) (hq : q < n) (f g : ℕ → ℚ)
    (hfg : ∀ p < n, p ≠ q → f p = g p) :
    ∑ p ∈ Finset.range n, f p = (∑ p ∈ Finset.range n, g p) - g q + f q := by
  have hqmem : q ∈ Finset.range n := Finset.mem_range.mpr hq
  rw [← Finset.add_sum_erase _ f hqmem, ← Finset.add_sum_erase _ g hqmem]
  have heq : ∑ p ∈ (Finset.range n).erase q, f p =
      ∑ p ∈ (Finset.range n).erase q, g p := by
    apply Finset.sum_congr rfl
    intro p hp
    exact hfg p (Finset.mem_range.mp (Finset.mem_of_mem_erase hp))
      (Finset.ne_of_mem_erase hp)
  rw [heq]
  ring

/-- `timeAt` after overwriting the same position. -/
lemma timeAt_set_eq (times : List ℤ) (q : ℕ) (v : ℤ) (hq : q < times.length) :
    timeAt (times.set q v) q = v := by
  unfold timeAt
  rw [List.getD_eq_getElem?_getD, List.getElem?_set]
  simp [hq]

/-- `timeAt` after overwriting a different position. -/
lemma timeAt_set_ne (times : List ℤ) (q : ℕ) (v : ℤ) (p : ℕ) (hpq : p ≠ q) :
    timeAt (times.set q v) p = timeAt times p := by
  unfold timeAt
  rw [List.getD_eq_getElem?_getD, List.getElem?_set, if_neg (fun h => hpq h.symm),
    ← List.getD_eq_getElem?_getD]

/-- `posCost` only reads the times list at its own position. -/
lemma posCost_set_ne (inst : Instance) (order times : List ℤ) (q : ℕ) (v : ℤ)
    (p : ℕ) (hpq : p ≠ q) :
    posCost inst order (times.set q v) p = posCost inst order times p := by
  unfold posCost
  rw [timeAt_set_ne times q v p hpq]

/-- Total cost after overwriting the time at one position `q`: the sum
changes by the difference of the position-`q` contributions. -/
lemma totalCost_set (inst : Instance) (order times : List ℤ) (q : ℕ) (v : ℤ)
    (hq : q < inst.nb_planes) :
    totalCost inst order (times.set q v) =
      totalCost inst order times - posCost inst order times q +
        posCost inst order (times.set q v) q := by
  unfold totalCost
  rw [range_map_sum, range_map_sum]
  exact sum_range_update inst.nb_planes q hq _ _
    (fun p _ hpq => posCost_set_ne inst order times q v p hpq)

/-- `posCost` at a position whose time is at or past the target. -/
lemma posCost_tardy (inst : Instance) (order times : List ℤ) (p : ℕ)
    (h : inst.target_time.getD (planeAt order p) 0 ≤ timeAt times p) :
    posCost inst order times p =
      ((timeAt times p - inst.target_time.getD (planeAt order p) 0 : ℤ) : ℚ) *
        inst.tardiness_cost.getD (planeAt order p) 0 := by
  unfold posCost
  rw [if_neg (not_lt.mpr h)]

/-- `posCost` at a position whose time is at or before the target. -/
lemma posCost_early (inst : Instance) (order times : List ℤ) (p : ℕ)
    (h : timeAt times p ≤ inst.target_time.getD (planeAt order p) 0) :
    posCost inst order times p =
      ((inst.target_time.getD (planeAt order p) 0 - timeAt times p : ℤ) : ℚ) *
        inst.earliness_cost.getD (planeAt order p) 0 := by
  unfold posCost
  by_cases hlt : timeAt times p < inst.target_time.getD (planeAt order p) 0
  · rw [if_pos hlt]
  · have heq : timeAt times p = inst.target_time.getD (planeAt order p) 0 :=
      le_antisymm h (not_lt.mp hlt)
    rw [if_neg hlt, heq]
    simp

/-- C6 counterexample: with a zero tardiness rate (rates are only
required non-negative), moving the single plane from its target time `0`
to time `5` — both candidates feasible — leaves the evaluated cost at
`0`: the cost does not strictly increase past the target. -/
theorem claim_C6_counterexample :
    evaluate_solution ⟨1, [0], [0], [10], [1], [0], [[0]]⟩
      ⟨some [0], some [0]⟩ = some 0 ∧
    evaluate_solution ⟨1, [0], [0], [10], [1], [0], [[0]]⟩
      ⟨some [0], some [5]⟩ = some 0 := by
  constructor <;>
    rw [evaluate_char (by decide) (by decide) (by decide),
      if_pos (by decide), if_pos (by decide)] <;>
    · congr 1
      norm_num [totalCost, posCost, planeAt, timeAt, List.range_succ]

/-- C6 (amended): for a fixed order and fixed other times, with both
candidates feasible, moving one plane's time `d > 0` further past its
target changes the evaluated cost by exactly `d * tardiness_cost[plane]`
— a strict increase whenever that rate is positive — and moving it `d`
further before its target changes the cost by exactly
`d * earliness_cost[plane]`, strict whenever that rate is positive.
(With a zero rate the cost is unchanged, so the increase is not strict
in general.) -/
theorem claim_C6 :
    (∀ (inst : Instance) (order times : List ℤ) (q : ℕ) (d : ℤ),
      WF inst → order.Perm (rangeList inst.nb_planes) →
      times.length = inst.nb_planes → q < inst.nb_planes → 0 < d →
      (∀ p < inst.nb_planes, WindowOK inst order times p) →
      (∀ p < inst.nb_planes, 1 ≤ p → SepOK inst order times p) →
      (∀ p < inst.nb_planes, WindowOK inst order (times.set q (timeAt times q + d)) p) →
      (∀ p < inst.nb_planes, 1 ≤ p → SepOK inst order (times.set q (timeAt times q + d)) p) →
      inst.target_time.getD (planeAt order q) 0 ≤ timeAt times q →
      ∃ c, evaluate_solution inst ⟨some order, some times⟩ = some c ∧
        evaluate_solution inst ⟨some order, some (times.set q (timeAt times q + d))⟩ =
          some (c + (d : ℚ) * inst.tardiness_cost.getD (planeAt order q) 0) ∧
        (0 < inst.tardiness_cost.getD (planeAt order q) 0 →
          c < c + (d : ℚ) * inst.tardiness_cost.getD (planeAt order q) 0)) ∧
    (∀ (inst : Instance) (order times : List ℤ) (q : ℕ) (d : ℤ),
      WF inst → order.Perm (rangeList inst.nb_planes) →
      times.length = inst.nb_planes → q < inst.nb_planes → 0 < d →
      (∀ p < inst.nb_planes, WindowOK inst order times p) →
      (∀ p < inst.nb_planes, 1 ≤ p → SepOK inst order times p) →
      (∀ p < inst.nb_planes, WindowOK inst order (times.set q (timeAt times q - d)) p) →
      (∀ p < inst.nb_planes, 1 ≤ p → SepOK inst order (times.set q (timeAt times q - d)) p) →
      timeAt times q ≤ inst.target_time.getD (planeAt order q) 0 →
      ∃ c, evaluate_solution inst ⟨some order, some times⟩ = some c ∧
        evaluate_solution inst ⟨some order, some (times.set q (timeAt times q - d))⟩ =
          some (c + (d : ℚ) * inst.earliness_cost.getD (planeAt order q) 0) ∧
        (0 < inst.earliness_cost.getD (planeAt order q) 0 →
          c < c + (d : ℚ) * inst.earliness_cost.getD (planeAt order q) 0)) := by
  constructor
  · intro inst order times q d hWF hperm ht hq hd hwin hsep hwin' hsep' htgt
    have hqt : q < times.length := ht ▸ hq
    have ht' : (times.set q (timeAt times q + d)).length = inst.nb_planes := by
      rw [List.length_set]; exact ht
    refine ⟨totalCost inst order times, ?_, ?_, ?_⟩
    · rw [evaluate_char hWF hperm ht, if_pos hwin, if_pos hsep]
    · rw [evaluate_char hWF hperm ht', if_pos hwin', if_pos hsep']
      congr 1
      rw [totalCost_set inst order times q _ hq]
      rw [posCost_tardy inst order times q htgt]
      rw [posCost_tardy inst order _ q (by
        rw [timeAt_set_eq times q _ hqt]
        omega)]
      rw [timeAt_set_eq times q _ hqt]
      push_cast
      ring
    · intro hrate
      have : (0 : ℚ) < (d : ℚ) * inst.tardiness_cost.getD (planeAt order q) 0 :=
        mul_pos (by exact_mod_cast hd) hrate
      linarith
  · intro inst order times q d hWF hperm ht hq hd hwin hsep hwin' hsep' htgt
    have hqt : q < times.length := ht ▸ hq
    have ht' : (times.set q (timeAt times q - d)).length = inst.nb_planes := by
      rw [List.length_set]; exact ht
    refine ⟨totalCost inst order times, ?_, ?_, ?_⟩
    · rw [evaluate_char hWF hperm ht, if_pos hwin, if_pos hsep]
    · rw [evaluate_char hWF hperm ht', if_pos hwin', if_pos hsep']
      congr 1
      rw [totalCost_set inst order times q _ hq]
      rw [posCost_early inst order times q htgt]
      rw [posCost_early inst order _ q (by
        rw [timeAt_set_eq times q _ hqt]
        omega)]
      rw [timeAt_set_eq times q _ hqt]
      push_cast
      ring
    · intro hrate
      have : (0 : ℚ) < (d : ℚ) * inst.earliness_cost.getD (planeAt order q) 0 :=
        mul_pos (by exact_mod_cast hd) hrate
      linarith

/-- Witness for C6 (amended): one plane with target `10`, earliness rate
`2`, tardiness rate `3`; landing at `10` costs `0`, at `12` costs `6`,
at `8` costs `4`. -/
theorem claim_C6_witness :
    (∃ c, evaluate_solution ⟨1, [0], [10], [20], [2], [3], [[0]]⟩
        ⟨some [0], some [10]⟩ = some c ∧
      evaluate_solution ⟨1, [0], [10], [20], [2], [3], [[0]]⟩
        ⟨some [0], some (([10] : List ℤ).set 0 (timeAt [10] 0 + 2))⟩ =
          some (c + (2 : ℚ) * 3) ∧
      (0 < (3 : ℚ) → c < c + (2 : ℚ) * 3)) ∧
    (∃ c, evaluate_solution ⟨1, [0], [10], [20], [2], [3], [[0]]⟩
        ⟨some [0], some [10]⟩ = some c ∧
      evaluate_solution ⟨1, [0], [10], [20], [2], [3], [[0]]⟩
        ⟨some [0], some (([10] : List ℤ).set 0 (timeAt [10] 0 - 2))⟩ =
          some (c + (2 : ℚ) * 2) ∧
      (0 < (2 : ℚ) → c < c + (2 : ℚ) * 2)) :=
  ⟨claim_C6.1 ⟨1, [0], [10], [20], [2], [3], [[0]]⟩ [0] [10] 0 2
      (by decide) (by decide) (by decide) (by decide) (by decide)
      (by decide) (by decide) (by decide) (by decide) (by decide),
    claim_C6.2 ⟨1, [0], [10], [20], [2], [3], [[0]]⟩ [0] [10] 0 2
      (by decide) (by decide) (by decide) (by decide) (by decide)
      (by decide) (by decide) (by decide) (by decide) (by decide)⟩

/-- The worst feasible deviation penalty a single plane can contribute:
landing at `earliest_time` costs `(target - earliest) * earliness_cost`,
landing at `latest_time` costs `(latest - target) * tardiness_cost`; any
in-window landing costs at most the larger of the two. -/
def worstDev (inst : Instance) (pl : ℕ) : ℚ :=
  max
    (((inst.target_time.getD pl 0 - inst.earliest_time.getD pl 0 : ℤ) : ℚ) *
      inst.earliness_cost.getD pl 0)
    (((inst.latest_time.getD pl 0 - inst.target_time.getD pl 0 : ℤ) : ℚ) *
      inst.tardiness_cost.getD pl 0)

/-- The instance's total worst-case feasible deviation penalty. -/
def worstCost (inst : Instance) : ℚ :=
  ((List.range inst.nb_planes).map (worstDev inst)).sum

/-- An in-window position contributes at most its plane's worst
deviation penalty (given non-negative cost rates). -/
lemma posCost_le_worstDev (inst : Instance) (order times : List ℤ) (p : ℕ)
    (hwin : WindowOK inst order times p)
    (hec : 0 ≤ inst.earliness_cost.getD (planeAt order p) 0)
    (htc : 0 ≤ inst.tardiness_cost.getD (planeAt order p) 0) :
    posCost inst order times p ≤ worstDev inst (planeAt order p) := by
  obtain ⟨h1, h2⟩ := hwin
  unfold posCost worstDev
  by_cases hlt : timeAt times p < inst.target_time.getD (planeAt order p) 0
  · rw [if_pos hlt]
    refine le_trans ?_ (le_max_left _ _)
    apply mul_le_mul_of_nonneg_right _ hec
    exact_mod_cast Int.sub_le_sub_left h1 _
  · rw [if_neg hlt]
    refine le_trans ?_ (le_max_right _ _)
    apply mul_le_mul_of_nonneg_right _ htc
    exact_mod_cast Int.sub_le_sub_right h2 _

/-- Mapping a function over the positions of a list via `getD` is mapping
it over the list. -/
lemma map_range_getD {α β : Type} (l : List α) (d : α) (f : α → β) :
    (List.range l.length).map (fun p => f (l.getD p d)) = l.map f := by
  induction l with
  | nil => simp
  | cons a t ih =>
    simp only [List.length_cons, List.range_succ_eq_map, List.map_cons, List.map_map,
      List.getD_cons_zero]
    have hcomp : (fun p => f ((a :: t).getD p d)) ∘ Nat.succ =
        fun p => f (t.getD p d) := by
      funext p
      simp [List.getD_cons_succ]
    rw [hcomp, ih]

/-- Summing each position's plane's worst deviation over a permutation
order yields the instance total `worstCost`. -/
lemma sum_worstDev_perm (inst : Instance) (order : List ℤ)
    (hperm : order.Perm (rangeList inst.nb_planes)) :
    ((List.range inst.nb_planes).map
      (fun p => worstDev inst (planeAt order p))).sum = worstCost inst := by
  have ho : order.length = inst.nb_planes := by
    have := hperm.length_eq
    simpa [rangeList] using this
  have h1 : (List.range inst.nb_planes).map (fun p => worstDev inst (planeAt order p)) =
      order.map (fun x => worstDev inst x.toNat) := by
    rw [← ho]
    exact map_range_getD order 0 (fun x => worstDev inst x.toNat)
  have h2 : (order.map (fun x => worstDev inst x.toNat)).Perm
      ((rangeList inst.nb_planes).map (fun x => worstDev inst x.toNat)) :=
    hperm.map _
  have h3 : (rangeList inst.nb_planes).map (fun x => worstDev inst x.toNat) =
      (List.range inst.nb_planes).map (worstDev inst) := by
    unfold rangeList
    rw [List.map_map]
    simp [Function.comp]
  rw [h1, worstCost, ← h3]
  exact h2.sum_eq

/-- C7 counterexample: one plane with window `[0, 10]`, target `0` and
tardiness rate `1e9`; landing at time `10` passes every feasibility
check, yet the returned cost is `1e10`, not strictly below the sentinel
`1e9` — so a feasible evaluation can reach and exceed the sentinel. -/
theorem claim_C7_counterexample :
    evaluate_solution ⟨1, [0], [0], [10], [1], [1000000000], [[0]]⟩
      ⟨some [0], some [10]⟩ = some 10000000000 ∧
    ¬ ((10000000000 : ℚ) < PENALTY) := by
  constructor
  · rw [evaluate_char (by decide) (by decide) (by decide),
      if_pos (by decide), if_pos (by decide)]
    congr 1
    norm_num [totalCost, posCost, planeAt, timeAt, List.range_succ]
  · norm_num [PENALTY]

/-- C7 (amended): the sentinel dominates feasible costs only on
instances whose penalties cannot reach it: when the cost rates are
non-negative and the total worst-case deviation penalty `worstCost` is
strictly below `1e9`, every candidate passing all feasibility checks
evaluates to a cost strictly below `1e9` (so only for such instances may
callers soundly read any value `≥ 1e9` as infeasible). -/
theorem claim_C7 (inst : Instance) (order times : List ℤ)
    (hWF : WF inst)
    (hperm : order.Perm (rangeList inst.nb_planes))
    (ht : times.length = inst.nb_planes)
    (hrates : ∀ pl < inst.nb_planes,
      0 ≤ inst.earliness_cost.getD pl 0 ∧ 0 ≤ inst.tardiness_cost.getD pl 0)
    (hbound : worstCost inst < PENALTY)
    (hwin : ∀ p < inst.nb_planes, WindowOK inst order times p)
    (hsep : ∀ p < inst.nb_planes, 1 ≤ p → SepOK inst order times p) :
    ∃ c, evaluate_solution inst ⟨some order, some times⟩ = some c ∧ c < PENALTY := by
  have ho : order.length = inst.nb_planes := by
    have := hperm.length_eq
    simpa [rangeList] using this
  have hplane : ∀ p < inst.nb_planes, planeAt order p < inst.nb_planes := by
    intro p hp
    have hpo : p < order.length := ho ▸ hp
    have hmem : order.getD p 0 ∈ order := by
      rw [List.getD_eq_getElem _ _ hpo]
      exact List.getElem_mem hpo
    exact (mem_rangeList.mp (hperm.mem_iff.mp hmem)).2
  refine ⟨totalCost inst order times, ?_, ?_⟩
  · rw [evaluate_char hWF hperm ht, if_pos hwin, if_pos hsep]
  · have hle : totalCost inst order times ≤
        ((List.range inst.nb_planes).map
          (fun p => worstDev inst (planeAt order p))).sum := by
      unfold totalCost
      rw [range_map_sum, range_map_sum]
      apply Finset.sum_le_sum
      intro p hp
      have hp' := Finset.mem_range.mp hp
      exact posCost_le_worstDev inst order times p (hwin p hp')
        (hrates _ (hplane p hp')).1 (hrates _ (hplane p hp')).2
    rw [sum_worstDev_perm inst order hperm] at hle
    linarith

/-- Witness for C7 (amended): the spec §8 example instance (worst-case
penalty `max(20, 30) = 30 < 1e9`), candidate landing at `15`, evaluating
to a cost below the sentinel. -/
theorem claim_C7_witness :
    ∃ c, evaluate_solution ⟨1, [0], [10], [20], [2], [3], [[0]]⟩
      ⟨some [0], some [15]⟩ = some c ∧ c < PENALTY :=
  claim_C7 _ [0] [15] (by decide) (by decide) (by decide) (by decide)
    (by norm_num [worstCost, worstDev, PENALTY, List.range_succ])
    (by decide) (by decide)

section Loader

variable {τ : Type}

/-- `next(it)` on the token iterator of `_load_instance_from_file`:
yields the next token and the remaining stream, or `none` for the
StopIteration raised on an exhausted stream. -/
def takeTok : List τ → Option (τ × List τ)
  | [] => none
  | t :: ts => some (t, ts)

/-- `int(next(it))`: consume one token and parse it as an integer;
`none` models both StopIteration and the ValueError of a failed
`int(...)`. The integer parser `pI` is a parameter of the model. -/
def readInt (pI : τ → Option ℤ) (ts : List τ) : Option (ℤ × List τ) :=
  match takeTok ts with
  | none => none
  | some (t, rest) =>
    match pI t with
    | none => none
    | some v => some (v, rest)

/-- `float(next(it))`: consume one token and parse it as a real (cost
rate), with the real parser `pF` a parameter of the model. -/
def readReal (pF : τ → Option ℚ) (ts : List τ) : Option (ℚ × List τ) :=
  match takeTok ts with
  | none => none
  | some (t, rest) =>
    match pF t with
    | none => none
    | some v => some (v, rest)

/-- The inner loop `for _ in range(self.nb_planes): sep_row.append(int(next(it)))`:
read `k` integer separation values. -/
def readSeps (pI : τ → Option ℤ) : ℕ → List τ → Option (List ℤ × List τ)
  | 0, ts => some ([], ts)
  | k + 1, ts =>
    match readInt pI ts with
    | none => none
    | some (v, ts1) =>
      match readSeps pI k ts1 with
      | none => none
      | some (vs, ts2) => some (v :: vs, ts2)

/-- The values read for one plane by the body of the per-plane loop of
`_load_instance_from_file`, in source order: earliest, target and latest
landing time, earliness and tardiness cost rate, separation row. -/
structure PlaneData where
  e : ℤ
  t : ℤ
  l : ℤ
  ec : ℚ
  tc : ℚ
  seps : List ℤ
deriving Repr, DecidableEq

/-- One iteration of the per-plane loop: skip the appearance-time token,
then read three integers, two reals, and `n` separation integers. -/
def readPlane (pI : τ → Option ℤ) (pF : τ → Option ℚ) (n : ℕ) (ts : List τ) :
    Option (PlaneData × List τ) :=
  match takeTok ts with
  | none => none
  | some (_, ts0) =>
    match readInt pI ts0 with
    | none => none
    | some (e, ts1) =>
      match readInt pI ts1 with
      | none => none
      | some (t, ts2) =>
        match readInt pI ts2 with
        | none => none
        | some (l, ts3) =>
          match readReal pF ts3 with
          | none => none
          | some (ec, ts4) =>
            match readReal pF ts4 with
            | none => none
            | some (tc, ts5) =>
              match readSeps pI n ts5 with
              | none => none
              | some (seps, ts6) => some (⟨e, t, l, ec, tc, seps⟩, ts6)

/-- The per-plane loop, run `k` times (with `n` the separation-row
width, always the plane count). -/
def readPlanes (pI : τ → Option ℤ) (pF : τ → Option ℚ) (n : ℕ) :
    ℕ → List τ → Option (List PlaneData × List τ)
  | 0, ts => some ([], ts)
  | k + 1, ts =>
    match readPlane pI pF n ts with
    | none => none
    | some (pd, ts1) =>
      match readPlanes pI pF n k ts1 with
      | none => none
      | some (pds, ts2) => some (pd :: pds, ts2)

/-- `AircraftLandingProblem._load_instance_from_file` after the file has
been read and split into whitespace-delimited tokens: parse the plane
count, skip the freeze time, run the per-plane loop, and assemble the
instance arrays; tokens left over after the loop are ignored. `none`
models a raised StopIteration or ValueError. The per-plane loop
`for p in range(self.nb_planes)` runs `max(nb, 0)` times, i.e.
`nb.toNat` times; `Instance.nb_planes` stores that count (the source
keeps the raw parsed int, which differs only when the count is
negative). -/
def load_instance (pI : τ → Option ℤ) (pF : τ → Option ℚ) (tokens : List τ) :
    Option Instance :=
  match readInt pI tokens with
  | none => none
  | some (nb, ts1) =>
    match takeTok ts1 with
    | none => none
    | some (_, ts2) =>
      match readPlanes pI pF nb.toNat nb.toNat ts2 with
      | none => none
      | some (pds, _) =>
        some ⟨nb.toNat, pds.map (·.e), pds.map (·.t), pds.map (·.l),
          pds.map (·.ec), pds.map (·.tc), pds.map (·.seps)⟩

/-- The stream shape accepted by the separation-row loop: `k` tokens,
each parsing as an integer. -/
def SepsShape (pI : τ → Option ℤ) : ℕ → List τ → Prop
  | 0, _ => True
  | k + 1, ts => ∃ t rest, ts = t :: rest ∧ (pI t).isSome ∧ SepsShape pI k rest

/-- The stream shape accepted for one plane: an (arbitrary) appearance
token, three integer tokens, two real tokens, then `n` integer
separation tokens. -/
def PlaneShape (pI : τ → Option ℤ) (pF : τ → Option ℚ) (n : ℕ) (ts : List τ) : Prop :=
  ∃ a e t l ec tc rest, ts = a :: e :: t :: l :: ec :: tc :: rest ∧
    (pI e).isSome ∧ (pI t).isSome ∧ (pI l).isSome ∧
    (pF ec).isSome ∧ (pF tc).isSome ∧ SepsShape pI n rest

/-- The stream shape accepted by `k` iterations of the per-plane loop. -/
def PlanesShape (pI : τ → Option ℤ) (pF : τ → Option ℚ) (n : ℕ) :
    ℕ → List τ → Prop
  | 0, _ => True
  | k + 1, ts => PlaneShape pI pF n ts ∧ PlanesShape pI pF n k (ts.drop (6 + n))

/-- The stream shape accepted by `load_instance`: a plane-count token
parsing to `nb`, a freeze-time token, then `nb.toNat` plane blocks —
with no constraint whatsoever on tokens beyond those. -/
def LoadShape (pI : τ → Option ℤ) (pF : τ → Option ℚ) (ts : List τ) : Prop :=
  ∃ t0 t1 rest nb, ts = t0 :: t1 :: rest ∧ pI t0 = some nb ∧
    PlanesShape pI pF nb.toNat nb.toNat rest

/-- Inversion for a successful `readInt`. -/
lemma readInt_inv {pI : τ → Option ℤ} {ts : List τ} {v : ℤ} {rem : List τ}
    (h : readInt pI ts = some (v, rem)) :
    ∃ t, ts = t :: rem ∧ pI t = some v := by
  cases ts with
  | nil => simp [readInt, takeTok] at h
  | cons t rest =>
    simp only [readInt, takeTok] at h
    cases hpt : pI t with
    | none => rw [hpt] at h; simp at h
    | some w =>
      rw [hpt] at h
      simp only [Option.some.injEq, Prod.mk.injEq] at h
      exact ⟨t, by rw [h.2], by rw [hpt, h.1]⟩

/-- Inversion for a successful `readReal`. -/
lemma readReal_inv {pF : τ → Option ℚ} {ts : List τ} {v : ℚ} {rem : List τ}
    (h : readReal pF ts = some (v, rem)) :
    ∃ t, ts = t :: rem ∧ pF t = some v := by
  cases ts with
  | nil => simp [readReal, takeTok] at h
  | cons t rest =>
    simp only [readReal, takeTok] at h
    cases hpt : pF t with
    | none => rw [hpt] at h; simp at h
    | some w =>
      rw [hpt] at h
      simp only [Option.some.injEq, Prod.mk.injEq] at h
      exact ⟨t, by rw [h.2], by rw [hpt, h.1]⟩

/-- Inversion for a successful `takeTok`. -/
lemma takeTok_inv {ts : List τ} {t : τ} {rest : List τ}
    (h : takeTok ts = some (t, rest)) : ts = t :: rest := by
  cases ts with
  | nil => simp [takeTok] at h
  | cons a l =>
    simp only [takeTok, Option.some.injEq, Prod.mk.injEq] at h
    rw [h.1, h.2]

/-- A successful `readSeps` consumes exactly `k` tokens. -/
lemma readSeps_inv {pI : τ → Option ℤ} :
    ∀ {k : ℕ} {ts : List τ} {vs : List ℤ} {rem : List τ},
      readSeps pI k ts = some (vs, rem) →
      ts.length = k + rem.length ∧ rem = ts.drop k ∧ vs.length = k := by
  intro k
  induction k with
  | zero =>
    intro ts vs rem h
    simp only [readSeps, Option.some.injEq, Prod.mk.injEq] at h
    obtain ⟨h1, h2⟩ := h
    subst h1
    subst h2
    simp
  | succ m ih =>
    intro ts vs rem h
    simp only [readSeps] at h
    split at h
    · exact absurd h (by simp)
    · rename_i v ts1 h1
      split at h
      · exact absurd h (by simp)
      · rename_i vs' ts2 h2
        simp only [Option.some.injEq, Prod.mk.injEq] at h
        obtain ⟨t, hts, _⟩ := readInt_inv h1
        obtain ⟨hlen, hdrop, hvs⟩ := ih h2
        subst hts
        obtain ⟨hv, hr⟩ := h
        refine ⟨?_, ?_, ?_⟩
        · rw [← hr]
          simp only [List.length_cons]
          omega
        · rw [← hr, hdrop]
          rfl
        · rw [← hv]
          simp only [List.length_cons]
          omega

/-- A successful `readPlane` consumes exactly `6 + n` tokens. -/
lemma readPlane_inv {pI : τ → Option ℤ} {pF : τ → Option ℚ} {n : ℕ}
    {ts : List τ} {pd : PlaneData} {rem : List τ}
    (h : readPlane pI pF n ts = some (pd, rem)) :
    ts.length = (6 + n) + rem.length ∧ rem = ts.drop (6 + n) := by
  simp only [readPlane] at h
  split at h
  · exact absurd h (by simp)
  · rename_i a ts0 htk
    have hts : ts = a :: ts0 := takeTok_inv htk
    split at h
    · exact absurd h (by simp)
    · rename_i e ts1 h1
      obtain ⟨te, hts0, _⟩ := readInt_inv h1
      split at h
      · exact absurd h (by simp)
      · rename_i t ts2 h2
        obtain ⟨tt, hts1, _⟩ := readInt_inv h2
        split at h
        · exact absurd h (by simp)
        · rename_i l ts3 h3
          obtain ⟨tl, hts2, _⟩ := readInt_inv h3
          split at h
          · exact absurd h (by simp)
          · rename_i ec ts4 h4
            obtain ⟨tec, hts3, _⟩ := readReal_inv h4
            split at h
            · exact absurd h (by simp)
            · rename_i tc ts5 h5
              obtain ⟨ttc, hts4, _⟩ := readReal_inv h5
              split at h
              · exact absurd h (by simp)
              · rename_i seps ts6 h6
                simp only [Option.some.injEq, Prod.mk.injEq] at h
                obtain ⟨hlen6, hdrop6, _⟩ := readSeps_inv h6
                subst hts hts0 hts1 hts2 hts3 hts4
                constructor
                · rw [← h.2]
                  simp only [List.length_cons]
                  omega
                · rw [← h.2, hdrop6]
                  have h6n : 6 + n = n + 6 := by omega
                  rw [h6n]
                  rfl

/-- A successful `readPlanes` over `k` iterations consumes exactly
`k * (6 + n)` tokens and yields `k` plane records. -/
lemma readPlanes_inv {pI : τ → Option ℤ} {pF : τ → Option ℚ} {n : ℕ} :
    ∀ {k : ℕ} {ts : List τ} {pds : List PlaneData} {rem : List τ},
      readPlanes pI pF n k ts = some (pds, rem) →
      ts.length = k * (6 + n) + rem.length ∧ pds.length = k := by
  intro k
  induction k with
  | zero =>
    intro ts pds rem h
    simp only [readPlanes, Option.some.injEq, Prod.mk.injEq] at h
    obtain ⟨h1, h2⟩ := h
    subst h1
    subst h2
    simp
  | succ m ih =>
    intro ts pds rem h
    simp only [readPlanes] at h
    split at h
    · exact absurd h (by simp)
    · rename_i pd ts1 h1
      obtain ⟨hlen1, _⟩ := readPlane_inv h1
      split at h
      · exact absurd h (by simp)
      · rename_i pds' ts2 h2
        simp only [Option.some.injEq, Prod.mk.injEq] at h
        obtain ⟨hlen2, hpds⟩ := ih h2
        constructor
        · rw [← h.2]
          have hmul : (m + 1) * (6 + n) = (6 + n) + m * (6 + n) := by ring
          omega
        · rw [← h.1]
          simp only [List.length_cons]
          omega

/-- A successful load requires the stream to hold at least the expected
`2 + N * (6 + N)` tokens (with `N` the loaded plane count): a stream
shorter than that can never load. -/
lemma load_instance_length {pI : τ → Option ℤ} {pF : τ → Option ℚ}
    {ts : List τ} {inst : Instance}
    (h : load_instance pI pF ts = some inst) :
    2 + inst.nb_planes * (6 + inst.nb_planes) ≤ ts.length := by
  simp only [load_instance] at h
  split at h
  · exact absurd h (by simp)
  · rename_i nb ts1 h1
    obtain ⟨t0, hts, _⟩ := readInt_inv h1
    split at h
    · exact absurd h (by simp)
    · rename_i t1 ts2 h2
      have hts1 : ts1 = t1 :: ts2 := takeTok_inv h2
      split at h
      · exact absurd h (by simp)
      · rename_i pds ts3 h3
        simp only [Option.some.injEq] at h
        obtain ⟨hlen3, _⟩ := readPlanes_inv h3
        have hnb : inst.nb_planes = nb.toNat := by rw [← h]
        subst hts
        subst hts1
        simp only [List.length_cons]
        rw [hnb]
        omega

/-- Appending tokens past a successful `readInt` does not disturb it. -/
lemma readInt_append {pI : τ → Option ℤ} {ts : List τ} {v : ℤ} {rem : List τ}
    (h : readInt pI ts = some (v, rem)) (ex : List τ) :
    readInt pI (ts ++ ex) = some (v, rem ++ ex) := by
  obtain ⟨t, hts, hpt⟩ := readInt_inv h
  subst hts
  simp [readInt, takeTok, hpt]

/-- Appending tokens past a successful `readReal` does not disturb it. -/
lemma readReal_append {pF : τ → Option ℚ} {ts : List τ} {v : ℚ} {rem : List τ}
    (h : readReal pF ts = some (v, rem)) (ex : List τ) :
    readReal pF (ts ++ ex) = some (v, rem ++ ex) := by
  obtain ⟨t, hts, hpt⟩ := readReal_inv h
  subst hts
  simp [readReal, takeTok, hpt]

/-- Appending tokens past a successful `readSeps` does not disturb it. -/
lemma readSeps_append {pI : τ → Option ℤ} (ex : List τ) :
    ∀ {k : ℕ} {ts : List τ} {vs : List ℤ} {rem : List τ},
      readSeps pI k ts = some (vs, rem) →
      readSeps pI k (ts ++ ex) = some (vs, rem ++ ex) := by
  intro k
  induction k with
  | zero =>
    intro ts vs rem h
    simp only [readSeps, Option.some.injEq, Prod.mk.injEq] at h ⊢
    exact ⟨h.1, by rw [h.2]⟩
  | succ m ih =>
    intro ts vs rem h
    simp only [readSeps] at h ⊢
    split at h
    · exact absurd h (by simp)
    · rename_i v ts1 h1
      split at h
      · exact absurd h (by simp)
      · rename_i vs' ts2 h2
        simp only [Option.some.injEq, Prod.mk.injEq] at h
        rw [readInt_append h1 ex]
        simp only [ih h2]
        rw [← h.1, ← h.2]

/-- Appending tokens past a successful `readPlane` does not disturb it. -/
lemma readPlane_append {pI : τ → Option ℤ} {pF : τ → Option ℚ} {n : ℕ}
    {ts : List τ} {pd : PlaneData} {rem : List τ}
    (h : readPlane pI pF n ts = some (pd, rem)) (ex : List τ) :
    readPlane pI pF n (ts ++ ex) = some (pd, rem ++ ex) := by
  simp only [readPlane] at h ⊢
  split at h
  · exact absurd h (by simp)
  · rename_i a ts0 htk
    have hts : ts = a :: ts0 := takeTok_inv htk
    subst hts
    split at h
    · exact absurd h (by simp)
    · rename_i e ts1 h1
      split at h
      · exact absurd h (by simp)
      · rename_i t ts2 h2
        split at h
        · exact absurd h (by simp)
        · rename_i l ts3 h3
          split at h
          · exact absurd h (by simp)
          · rename_i ec ts4 h4
            split at h
            · exact absurd h (by simp)
            · rename_i tc ts5 h5
              split at h
              · exact absurd h (by simp)
              · rename_i seps ts6 h6
                simp only [Option.some.injEq, Prod.mk.injEq] at h
                simp only [List.cons_append, takeTok]
                rw [readInt_append h1 ex]
                simp only []
                rw [readInt_append h2 ex]
                simp only []
                rw [readInt_append h3 ex]
                simp only []
                rw [readReal_append h4 ex]
                simp only []
                rw [readReal_append h5 ex]
                simp only []
                rw [readSeps_append ex h6]
                rw [← h.1, ← h.2]

/-- Appending tokens past a successful `readPlanes` does not disturb
it. -/
lemma readPlanes_append {pI : τ → Option ℤ} {pF : τ → Option ℚ} {n : ℕ}
    (ex : List τ) :
    ∀ {k : ℕ} {ts : List τ} {pds : List PlaneData} {rem : List τ},
      readPlanes pI pF n k ts = some (pds, rem) →
      readPlanes pI pF n k (ts ++ ex) = some (pds, rem ++ ex) := by
  intro k
  induction k with
  | zero =>
    intro ts pds rem h
    simp only [readPlanes, Option.some.injEq, Prod.mk.injEq] at h ⊢
    exact ⟨h.1, by rw [h.2]⟩
  | succ m ih =>
    intro ts pds rem h
    simp only [readPlanes] at h ⊢
    split at h
    · exact absurd h (by simp)
    · rename_i pd ts1 h1
      split at h
      · exact absurd h (by simp)
      · rename_i pds' ts2 h2
        simp only [Option.some.injEq, Prod.mk.injEq] at h
        rw [readPlane_append h1 ex]
        simp only [ih h2]
        rw [← h.1, ← h.2]

/-- Surplus tokens are ignored: appending arbitrary extra tokens to a
stream that loads an instance loads the very same instance. -/
lemma load_instance_append {pI : τ → Option ℤ} {pF : τ → Option ℚ}
    {ts : List τ} {inst : Instance}
    (h : load_instance pI pF ts = some inst) (ex : List τ) :
    load_instance pI pF (ts ++ ex) = some inst := by
  simp only [load_instance] at h ⊢
  split at h
  · exact absurd h (by simp)
  · rename_i nb ts1 h1
    split at h
    · exact absurd h (by simp)
    · rename_i t1 ts2 h2
      have hts1 : ts1 = t1 :: ts2 := takeTok_inv h2
      subst hts1
      split at h
      · exact absurd h (by simp)
      · rename_i pds ts3 h3
        rw [readInt_append h1 ex]
        simp only [List.cons_append, takeTok]
        rw [readPlanes_append ex h3]
        exact h

/-- `readSeps` succeeds exactly on streams of the separation-row
shape. -/
lemma readSeps_isSome {pI : τ → Option ℤ} :
    ∀ {k : ℕ} {ts : List τ}, (readSeps pI k ts).isSome ↔ SepsShape pI k ts := by
  intro k
  induction k with
  | zero =>
    intro ts
    simp [readSeps, SepsShape]
  | succ m ih =>
    intro ts
    constructor
    · intro h
      rw [Option.isSome_iff_exists] at h
      obtain ⟨⟨vs, rem⟩, h⟩ := h
      simp only [readSeps] at h
      split at h
      · exact absurd h (by simp)
      · rename_i v ts1 h1
        split at h
        · exact absurd h (by simp)
        · rename_i vs' ts2 h2
          obtain ⟨t, hts, hpt⟩ := readInt_inv h1
          exact ⟨t, ts1, hts, by rw [hpt]; rfl, ih.mp (by rw [h2]; rfl)⟩
    · rintro ⟨t, rest, rfl, hpt, hshape⟩
      rw [Option.isSome_iff_exists] at hpt
      obtain ⟨v, hv⟩ := hpt
      have hrest := ih.mpr hshape
      rw [Option.isSome_iff_exists] at hrest
      obtain ⟨⟨vs, rem⟩, hrs⟩ := hrest
      simp only [readSeps, readInt, takeTok, hv, hrs]
      rfl

/-- `readPlane` succeeds exactly on streams of the per-plane shape. -/
lemma readPlane_isSome {pI : τ → Option ℤ} {pF : τ → Option ℚ} {n : ℕ}
    {ts : List τ} :
    (readPlane pI pF n ts).isSome ↔ PlaneShape pI pF n ts := by
  constructor
  · intro h
    rw [Option.isSome_iff_exists] at h
    obtain ⟨⟨pd, rem⟩, h⟩ := h
    simp only [readPlane] at h
    split at h
    · exact absurd h (by simp)
    · rename_i a ts0 htk
      have hts : ts = a :: ts0 := takeTok_inv htk
      split at h
      · exact absurd h (by simp)
      · rename_i e ts1 h1
        obtain ⟨te, hts0, hpe⟩ := readInt_inv h1
        split at h
        · exact absurd h (by simp)
        · rename_i t ts2 h2
          obtain ⟨tt, hts1, hpt⟩ := readInt_inv h2
          split at h
          · exact absurd h (by simp)
          · rename_i l ts3 h3
            obtain ⟨tl, hts2, hpl⟩ := readInt_inv h3
            split at h
            · exact absurd h (by simp)
            · rename_i ec ts4 h4
              obtain ⟨tec, hts3, hpec⟩ := readReal_inv h4
              split at h
              · exact absurd h (by simp)
              · rename_i tc ts5 h5
                obtain ⟨ttc, hts4, hptc⟩ := readReal_inv h5
                split at h
                · exact absurd h (by simp)
                · rename_i seps ts6 h6
                  subst hts hts0 hts1 hts2 hts3 hts4
                  refine ⟨a, te, tt, tl, tec, ttc, ts5, rfl, ?_, ?_, ?_, ?_, ?_, ?_⟩
                  · rw [hpe]; rfl
                  · rw [hpt]; rfl
                  · rw [hpl]; rfl
                  · rw [hpec]; rfl
                  · rw [hptc]; rfl
                  · exact readSeps_isSome.mp (by rw [h6]; rfl)
  · rintro ⟨a, e, t, l, ec, tc, rest, rfl, hpe, hpt, hpl, hpec, hptc, hshape⟩
    rw [Option.isSome_iff_exists] at hpe hpt hpl hpec hptc
    obtain ⟨ve, hve⟩ := hpe
    obtain ⟨vt, hvt⟩ := hpt
    obtain ⟨vl, hvl⟩ := hpl
    obtain ⟨vec, hvec⟩ := hpec
    obtain ⟨vtc, hvtc⟩ := hptc
    have hseps := readSeps_isSome.mpr hshape
    rw [Option.isSome_iff_exists] at hseps
    obtain ⟨⟨vs, rem⟩, hvs⟩ := hseps
    simp only [readPlane, readInt, readReal, takeTok, hve, hvt, hvl, hvec, hvtc, hvs]
    rfl

/-- `readPlanes` succeeds exactly on streams holding `k` well-shaped
plane blocks. -/
lemma readPlanes_isSome {pI : τ → Option ℤ} {pF : τ → Option ℚ} {n : ℕ} :
    ∀ {k : ℕ} {ts : List τ},
      (readPlanes pI pF n k ts).isSome ↔ PlanesShape pI pF n k ts := by
  intro k
  induction k with
  | zero =>
    intro ts
    simp [readPlanes, PlanesShape]
  | succ m ih =>
    intro ts
    constructor
    · intro h
      rw [Option.isSome_iff_exists] at h
      obtain ⟨⟨pds, rem⟩, h⟩ := h
      simp only [readPlanes] at h
      split at h
      · exact absurd h (by simp)
      · rename_i pd ts1 h1
        split at h
        · exact absurd h (by simp)
        · rename_i pds' ts2 h2
          obtain ⟨_, hdrop⟩ := readPlane_inv h1
          refine ⟨readPlane_isSome.mp (by rw [h1]; rfl), ?_⟩
          rw [← hdrop]
          exact ih.mp (by rw [h2]; rfl)
    · rintro ⟨hplane, hrest⟩
      have h1 := readPlane_isSome.mpr hplane
      rw [Option.isSome_iff_exists] at h1
      obtain ⟨⟨pd, rem⟩, h1⟩ := h1
      obtain ⟨_, hdrop⟩ := readPlane_inv h1
      have h2 := ih.mpr (hdrop ▸ hrest)
      rw [Option.isSome_iff_exists] at h2
      obtain ⟨⟨pds, rem2⟩, h2⟩ := h2
      simp only [readPlanes, h1, h2]
      rfl

/-- `load_instance` succeeds exactly on streams of the accepted overall
shape — in particular, surplus tokens after the expected prefix never
cause failure. -/
lemma load_instance_isSome {pI : τ → Option ℤ} {pF : τ → Option ℚ}
    {ts : List τ} :
    (load_instance pI pF ts).isSome ↔ LoadShape pI pF ts := by
  constructor
  · intro h
    rw [Option.isSome_iff_exists] at h
    obtain ⟨inst, h⟩ := h
    simp only [load_instance] at h
    split at h
    · exact absurd h (by simp)
    · rename_i nb ts1 h1
      obtain ⟨t0, hts, hp0⟩ := readInt_inv h1
      split at h
      · exact absurd h (by simp)
      · rename_i t1 ts2 h2
        have hts1 : ts1 = t1 :: ts2 := takeTok_inv h2
        subst hts1
        subst hts
        split at h
        · exact absurd h (by simp)
        · rename_i pds ts3 h3
          exact ⟨t0, t1, ts2, nb, rfl, hp0, readPlanes_isSome.mp (by rw [h3]; rfl)⟩
  · rintro ⟨t0, t1, rest, nb, rfl, hp0, hshape⟩
    have h3 := readPlanes_isSome.mpr hshape
    rw [Option.isSome_iff_exists] at h3
    obtain ⟨⟨pds, rem⟩, h3⟩ := h3
    simp only [load_instance, readInt, takeTok, hp0, h3]
    rfl

end Loader

/-- A decimal digit's value, or `none` for a non-digit character. -/
def digit? (c : Char) : Option ℕ :=
  if 48 ≤ c.toNat ∧ c.toNat ≤ 57 then some (c.toNat - 48) else none

/-- Accumulate decimal digits left to right. -/
def parseNatAux : List Char → ℕ → Option ℕ
  | [], acc => some acc
  | c :: rest, acc =>
    match digit? c with
    | none => none
    | some d => parseNatAux rest (acc * 10 + d)

/-- A nonempty all-digit character sequence as a natural number. -/
def parseNatDigits : List Char → Option ℕ
  | [] => none
  | c :: rest =>
    match digit? c with
    | none => none
    | some d => parseNatAux rest d

/-- Python `int(token)` on the canonical decimal numerals appearing in
OR-Library instance files (optional sign, then digits); tokens are
modelled as their character lists. -/
def pyInt (cs : List Char) : Option ℤ :=
  match cs with
  | '-' :: rest => (parseNatDigits rest).map (fun n => -(n : ℤ))
  | '+' :: rest => (parseNatDigits rest).map (fun n => (n : ℤ))
  | _ => (parseNatDigits cs).map (fun n => (n : ℤ))

/-- Split a character sequence at its first `.`, if any. -/
def splitDot : List Char → List Char × Option (List Char)
  | [] => ([], none)
  | c :: rest =>
    if c.toNat = 46 then ([], some rest)
    else
      let (a, b) := splitDot rest
      (c :: a, b)

/-- Python `float(token)` on the canonical decimal numerals appearing in
OR-Library instance files (optional sign, digits, optionally a dot and
fraction digits), as an exact rational. -/
def pyFloat (cs : List Char) : Option ℚ :=
  match cs with
  | '-' :: rest => (pyFloatCore rest).map (fun q => -q)
  | '+' :: rest => pyFloatCore rest
  | _ => pyFloatCore cs
where
  /-- The unsigned part of `pyFloat`. -/
  pyFloatCore (t : List Char) : Option ℚ :=
    match splitDot t with
    | (a, none) => (parseNatDigits a).map (fun n => (n : ℚ))
    | (a, some b) =>
      match parseNatDigits a, parseNatDigits b with
      | some ia, some ib => some ((ia : ℚ) + (ib : ℚ) / ((10 : ℚ) ^ b.length))
      | _, _ => none

/-- C8 counterexample: a 12-token stream whose first token parses to
`N = 1` plane — so the expected count is `2 + 1*(6+1) = 9 ≠ 12` — is
loaded successfully (the three surplus tokens are silently ignored),
contradicting the claim that a surplus token count fails with an
error. -/
theorem claim_C8_counterexample :
    (load_instance pyInt pyFloat
        [['1'], ['0'], ['0'], ['0'], ['1', '0'], ['2', '0'], ['2', '.', '5'],
          ['3'], ['0'], ['9'], ['9'], ['9']]).map Instance.nb_planes = some 1 ∧
    ([['1'], ['0'], ['0'], ['0'], ['1', '0'], ['2', '0'], ['2', '.', '5'],
        ['3'], ['0'], ['9'], ['9'], ['9']] : List (List Char)).length ≠
      2 + 1 * (6 + 1) := by
  exact ⟨by decide, by decide⟩

/-- C8 (amended): file-based construction fails whenever the stream
exhausts before the expected `2 + N*(6+N)` tokens are read (any
successfully loading stream holds at least that many tokens), and
whenever a read numeric token fails to parse as its expected type; but
surplus tokens beyond the expected count are ignored rather than
rejected: appending arbitrary tokens to a loading stream loads the same
instance, and success is characterized exactly by the shape of the
expected prefix (`LoadShape`), independent of anything after it. -/
theorem claim_C8 {τ : Type} (pI : τ → Option ℤ) (pF : τ → Option ℚ)
    (ts : List τ) :
    (∀ inst : Instance, load_instance pI pF ts = some inst →
      2 + inst.nb_planes * (6 + inst.nb_planes) ≤ ts.length) ∧
    (∀ (inst : Instance) (extra : List τ), load_instance pI pF ts = some inst →
      load_instance pI pF (ts ++ extra) = some inst) ∧
    ((load_instance pI pF ts).isSome ↔ LoadShape pI pF ts) :=
  ⟨fun _ h => load_instance_length h,
    fun _ extra h => load_instance_append h extra,
    load_instance_isSome⟩

/-- Witness for C8 (amended): a well-formed 9-token one-plane stream —
it loads, its length meets the expected count, appending a surplus token
reloads the same instance, and its shape is accepted. -/
theorem claim_C8_witness :
    (∀ inst : Instance,
      load_instance pyInt pyFloat
        [['1'], ['0'], ['0'], ['0'], ['1', '0'], ['2', '0'], ['2'], ['3'], ['0']] =
          some inst →
      2 + inst.nb_planes * (6 + inst.nb_planes) ≤ 9) ∧
    load_instance pyInt pyFloat
      ([['1'], ['0'], ['0'], ['0'], ['1', '0'], ['2', '0'], ['2'], ['3'], ['0']] ++
        [['7']]) =
      some ⟨1, [0], [10], [20], [((2 : ℕ) : ℚ)], [((3 : ℕ) : ℚ)], [[0]]⟩ ∧
    LoadShape pyInt pyFloat
      [['1'], ['0'], ['0'], ['0'], ['1', '0'], ['2', '0'], ['2'], ['3'], ['0']] := by
  obtain ⟨h1, h2, h3⟩ := claim_C8 pyInt pyFloat
    [['1'], ['0'], ['0'], ['0'], ['1', '0'], ['2', '0'], ['2'], ['3'], ['0']]
  refine ⟨fun inst h => h1 inst h, ?_, ?_⟩
  · exact h2 _ [['7']] rfl
  · exact h3.mp (by decide)

/-- The landing-time lower bound computed by the loop body of
`random_solution`: the plane's own `earliest_time` for the first
position, otherwise the maximum of its `earliest_time` and the previous
landing time plus the required separation. `none` models an IndexError
on a length-inconsistent instance. -/
def greedyStepLB (inst : Instance) (prev : Option (ℕ × ℤ)) (plane : ℕ) :
    Option ℤ :=
  match prev with
  | none => inst.earliest_time[plane]?
  | some (pp, pt) =>
    match inst.earliest_time[plane]?,
        (inst.separation_time[pp]?).bind (fun row => row[plane]?) with
    | some e, some s => some (max e (pt + s))
    | _, _ => none

/-- The landing-time loop of `random_solution`, walking the shuffled
order left to right: compute the lower bound, take `latest_time` as the
upper bound, assign the upper bound when the window is squeezed shut and
otherwise a drawn value `randint(min_time, max_time)` — the draw being
the explicit randomness parameter, indexed by position. -/
def greedyTimes (inst : Instance) (draw : ℕ → ℤ → ℤ → ℤ) :
    ℕ → Option (ℕ × ℤ) → List ℕ → Option (List ℤ)
  | _, _, [] => some []
  | p, prev, plane :: rest =>
    match greedyStepLB inst prev plane, inst.latest_time[plane]? with
    | some minT, some maxT =>
      let t := if minT > maxT then maxT else draw p minT maxT
      match greedyTimes inst draw (p + 1) (some (plane, t)) rest with
      | none => none
      | some ts => some (t :: ts)
    | _, _ => none

/-- `AircraftLandingProblem.random_solution`, with the randomness made
explicit: `shuffled` is the outcome of `random.shuffle(list(range(n)))`
(a caller-supplied permutation of `[0, n)`) and `draw p lo hi` the
outcome of the `random.randint(lo, hi)` call at position `p`. `none`
models a raised IndexError. -/
def random_solution (inst : Instance) (shuffled : List ℕ)
    (draw : ℕ → ℤ → ℤ → ℤ) : Option Solution :=
  match greedyTimes inst draw 0 none shuffled with
  | none => none
  | some ts => some ⟨some (shuffled.map Int.ofNat), some ts⟩

/-- The contract of `random.randint`: whenever `lo ≤ hi`, the drawn
value lies in `[lo, hi]` inclusive. -/
def DrawSpec (draw : ℕ → ℤ → ℤ → ℤ) : Prop :=
  ∀ k lo hi, lo ≤ hi → lo ≤ draw k lo hi ∧ draw k lo hi ≤ hi

/-- The value of the greedy lower bound (total form, as the claim
states it): the plane's own `earliest_time` at the first position,
otherwise the maximum of its `earliest_time` and the previous landing
time plus `separation_time[prev][cur]`. -/
def stepLBval (inst : Instance) (prev : Option (ℕ × ℤ)) (plane : ℕ) : ℤ :=
  match prev with
  | none => inst.earliest_time.getD plane 0
  | some (pp, pt) => max (inst.earliest_time.getD plane 0)
      (pt + (inst.separation_time.getD pp []).getD plane 0)

/-- The greedy assignment rule of `random_solution` for one position,
with `prev` the previous plane and its assigned time (`none` at the
first position): writing `lb` for the lower bound and `ub` for the
plane's `latest_time`, the assigned time equals `ub` when `ub < lb`, and
lies in `[lb, ub]` otherwise. -/
def GreedyStep (inst : Instance) (prev : Option (ℕ × ℤ)) (plane : ℕ)
    (t : ℤ) : Prop :=
  let lb := stepLBval inst prev plane
  let ub := inst.latest_time.getD plane 0
  (ub < lb → t = ub) ∧ (lb ≤ ub → lb ≤ t ∧ t ≤ ub)

/-- The greedy assignment rule along a whole order: each position's time
obeys `GreedyStep` with respect to the plane and time before it. -/
def GreedyChain (inst : Instance) :
    Option (ℕ × ℤ) → List ℕ → List ℤ → Prop
  | _, [], [] => True
  | prev, pl :: pls, t :: ts =>
    GreedyStep inst prev pl t ∧ GreedyChain inst (some (pl, t)) pls ts
  | _, _, _ => False

/-- On a length-consistent instance the lower-bound computation never
raises and yields exactly `stepLBval`. -/
lemma greedyStepLB_eq (inst : Instance) (hWF : WF inst)
    (prev : Option (ℕ × ℤ)) (plane : ℕ)
    (hpl : plane < inst.nb_planes)
    (hprev : ∀ pp pt, prev = some (pp, pt) → pp < inst.nb_planes) :
    greedyStepLB inst prev plane = some (stepLBval inst prev plane) := by
  obtain ⟨hE, hT, hL, hEC, hTC, hS, hRows⟩ := hWF
  have hge : inst.earliest_time[plane]? =
      some (inst.earliest_time.getD plane 0) :=
    lookup_getD _ 0 (by rw [hE]; exact hpl)
  match prev with
  | none => exact hge
  | some (pp, pt) =>
    have hpp : pp < inst.nb_planes := hprev pp pt rfl
    have hrowlt : pp < inst.separation_time.length := by rw [hS]; exact hpp
    have hrow : inst.separation_time[pp]? =
        some (inst.separation_time.getD pp []) := lookup_getD _ [] hrowlt
    have hrowlen : (inst.separation_time.getD pp []).length =
        inst.nb_planes := by
      rw [List.getD_eq_getElem _ _ hrowlt]
      exact hRows _ (List.getElem_mem hrowlt)
    have hsep : (inst.separation_time.getD pp [])[plane]? =
        some ((inst.separation_time.getD pp []).getD plane 0) :=
      lookup_getD _ 0 (by rw [hrowlen]; exact hpl)
    simp only [greedyStepLB, hge, hrow, Option.bind, hsep, stepLBval]

/-- On a length-consistent instance, the landing-time loop always
produces a list, one time per plane, for any draw outcomes whatsoever. -/
lemma greedyTimes_total (inst : Instance) (draw : ℕ → ℤ → ℤ → ℤ)
    (hWF : WF inst) :
    ∀ (planes : List ℕ) (p0 : ℕ) (prev : Option (ℕ × ℤ)),
      (∀ pl ∈ planes, pl < inst.nb_planes) →
      (∀ pp pt, prev = some (pp, pt) → pp < inst.nb_planes) →
      ∃ ts, greedyTimes inst draw p0 prev planes = some ts ∧
        ts.length = planes.length := by
  intro planes
  induction planes with
  | nil => exact fun p0 prev _ _ => ⟨[], rfl, rfl⟩
  | cons plane rest ih =>
    intro p0 prev hmem hprev
    have hpl : plane < inst.nb_planes := hmem plane (List.mem_cons_self _ _)
    have hgl : inst.latest_time[plane]? =
        some (inst.latest_time.getD plane 0) :=
      lookup_getD _ 0 (by rw [hWF.2.2.1]; exact hpl)
    have hlbeq := greedyStepLB_eq inst hWF prev plane hpl hprev
    obtain ⟨ts, hts, hlen⟩ := ih (p0 + 1)
      (some (plane, if stepLBval inst prev plane > inst.latest_time.getD plane 0
        then inst.latest_time.getD plane 0
        else draw p0 (stepLBval inst prev plane) (inst.latest_time.getD plane 0)))
      (fun pl hpl' => hmem pl (List.mem_cons_of_mem _ hpl'))
      (fun pp pt hpp => by
        simp only [Option.some.injEq, Prod.mk.injEq] at hpp
        rw [← hpp.1]
        exact hpl)
    refine ⟨(if stepLBval inst prev plane > inst.latest_time.getD plane 0
        then inst.latest_time.getD plane 0
        else draw p0 (stepLBval inst prev plane) (inst.latest_time.getD plane 0)) :: ts,
      ?_, ?_⟩
    · simp only [greedyTimes, hlbeq, hgl, hts]
    · simp only [List.length_cons, hlen]

/-- On a length-consistent instance, with draw outcomes respecting the
`randint` contract, the landing-time loop produces times obeying the
greedy rule at every position. -/
lemma greedyTimes_spec (inst : Instance) (draw : ℕ → ℤ → ℤ → ℤ)
    (hWF : WF inst) (hdraw : DrawSpec draw) :
    ∀ (planes : List ℕ) (p0 : ℕ) (prev : Option (ℕ × ℤ)),
      (∀ pl ∈ planes, pl < inst.nb_planes) →
      (∀ pp pt, prev = some (pp, pt) → pp < inst.nb_planes) →
      ∃ ts, greedyTimes inst draw p0 prev planes = some ts ∧
        ts.length = planes.length ∧ GreedyChain inst prev planes ts := by
  intro planes
  induction planes with
  | nil => exact fun p0 prev _ _ => ⟨[], rfl, rfl, trivial⟩
  | cons plane rest ih =>
    intro p0 prev hmem hprev
    have hpl : plane < inst.nb_planes := hmem plane (List.mem_cons_self _ _)
    have hgl : inst.latest_time[plane]? =
        some (inst.latest_time.getD plane 0) :=
      lookup_getD _ 0 (by rw [hWF.2.2.1]; exact hpl)
    have hlbeq := greedyStepLB_eq inst hWF prev plane hpl hprev
    obtain ⟨ts, hts, hlen, hchain⟩ := ih (p0 + 1)
      (some (plane, if stepLBval inst prev plane > inst.latest_time.getD plane 0
        then inst.latest_time.getD plane 0
        else draw p0 (stepLBval inst prev plane) (inst.latest_time.getD plane 0)))
      (fun pl hpl' => hmem pl (List.mem_cons_of_mem _ hpl'))
      (fun pp pt hpp => by
        simp only [Option.some.injEq, Prod.mk.injEq] at hpp
        rw [← hpp.1]
        exact hpl)
    refine ⟨(if stepLBval inst prev plane > inst.latest_time.getD plane 0
        then inst.latest_time.getD plane 0
        else draw p0 (stepLBval inst prev plane) (inst.latest_time.getD plane 0)) :: ts,
      ?_, ?_, ?_, ?_⟩
    · simp only [greedyTimes, hlbeq, hgl, hts]
    · simp only [List.length_cons, hlen]
    · constructor
      · intro hcase
        rw [if_pos hcase]
      · intro hcase
        rw [if_neg (not_lt.mpr hcase)]
        exact hdraw p0 _ _ hcase
    · exact hchain

/-- Along a greedy chain, every assigned time is at most its plane's
`latest_time`. -/
lemma chain_le_latest (inst : Instance) :
    ∀ (prev : Option (ℕ × ℤ)) (planes : List ℕ) (ts : List ℤ),
      GreedyChain inst prev planes ts →
      ∀ i < ts.length, ts.getD i 0 ≤ inst.latest_time.getD (planes.getD i 0) 0 := by
  intro prev planes
  induction planes generalizing prev with
  | nil =>
    intro ts h i hi
    cases ts with
    | nil => simp at hi
    | cons t ts' => exact h.elim
  | cons pl pls ih =>
    intro ts h i hi
    cases ts with
    | nil => simp at hi
    | cons t ts' =>
      obtain ⟨hstep, hchain⟩ := h
      cases i with
      | zero =>
        simp only [List.getD_cons_zero]
        obtain ⟨h1, h2⟩ := hstep
        by_cases hcase : inst.latest_time.getD pl 0 < stepLBval inst prev pl
        · rw [h1 hcase]
        · exact (h2 (not_lt.mp hcase)).2
      | succ j =>
        simp only [List.getD_cons_succ]
        exact ih (some (pl, t)) ts' hchain j (by simpa using hi)

/-- C9: on a length-consistent instance of any size (including `N = 0`
and `N = 1`) and for every outcome of the randomness source (any shuffle
of `[0, N)` and any draw outcomes whatsoever), `random_solution` returns
— never raises — a candidate whose landing order is a permutation of
`[0, N)` and whose times list has length exactly `N`. Feasibility is not
asserted. -/
theorem claim_C9 (inst : Instance) (shuffled : List ℕ) (draw : ℕ → ℤ → ℤ → ℤ)
    (hWF : WF inst) (hshuffle : shuffled.Perm (List.range inst.nb_planes)) :
    ∃ ts : List ℤ, random_solution inst shuffled draw =
        some ⟨some (shuffled.map Int.ofNat), some ts⟩ ∧
      (shuffled.map Int.ofNat).Perm (rangeList inst.nb_planes) ∧
      ts.length = inst.nb_planes := by
  have hmem : ∀ pl ∈ shuffled, pl < inst.nb_planes := fun pl hpl =>
    List.mem_range.mp (hshuffle.mem_iff.mp hpl)
  obtain ⟨ts, hts, hlen⟩ :=
    greedyTimes_total inst draw hWF shuffled 0 none hmem (by simp)
  refine ⟨ts, ?_, hshuffle.map _, ?_⟩
  · simp only [random_solution, hts]
  · rw [hlen, hshuffle.length_eq, List.length_range]

/-- Witness for C9: two planes, shuffle outcome `[1, 0]`, a draw source
always answering the lower bound. -/
theorem claim_C9_witness :
    ∃ ts : List ℤ,
      random_solution ⟨2, [0, 0], [5, 5], [20, 20], [1, 1], [1, 1], [[0, 3], [3, 0]]⟩
          [1, 0] (fun _ lo _ => lo) =
        some ⟨some ([1, 0].map Int.ofNat), some ts⟩ ∧
      ([1, 0].map Int.ofNat).Perm (rangeList 2) ∧ ts.length = 2 :=
  claim_C9 _ [1, 0] (fun _ lo _ => lo) (by decide) (by decide)

/-- C10: on a length-consistent instance, for every shuffle outcome and
every draw source respecting the `randint` contract, the returned times
follow the greedy rule position by position — lower bound `earliest` for
the first plane, `max(earliest, prev time + separation)` afterwards;
a time drawn inside `[lb, latest]` when `lb ≤ latest`, and exactly
`latest` when the window is squeezed shut — so every returned landing
time is at most its plane's `latest_time`. -/
theorem claim_C10 (inst : Instance) (shuffled : List ℕ) (draw : ℕ → ℤ → ℤ → ℤ)
    (hWF : WF inst) (hshuffle : shuffled.Perm (List.range inst.nb_planes))
    (hdraw : DrawSpec draw) :
    ∃ ts : List ℤ, random_solution inst shuffled draw =
        some ⟨some (shuffled.map Int.ofNat), some ts⟩ ∧
      GreedyChain inst none shuffled ts ∧
      ∀ i < ts.length, ts.getD i 0 ≤ inst.latest_time.getD (shuffled.getD i 0) 0 := by
  have hmem : ∀ pl ∈ shuffled, pl < inst.nb_planes := fun pl hpl =>
    List.mem_range.mp (hshuffle.mem_iff.mp hpl)
  obtain ⟨ts, hts, _, hchain⟩ :=
    greedyTimes_spec inst draw hWF hdraw shuffled 0 none hmem (by simp)
  refine ⟨ts, ?_, hchain, chain_le_latest inst none shuffled ts hchain⟩
  simp only [random_solution, hts]

/-- Witness for C10: two planes, shuffle outcome `[0, 1]`, the draw
source answering the lower bound (which satisfies the `randint`
contract). -/
theorem claim_C10_witness :
    ∃ ts : List ℤ,
      random_solution ⟨2, [0, 0], [5, 5], [20, 20], [1, 1], [1, 1], [[0, 3], [3, 0]]⟩
          [0, 1] (fun _ lo _ => lo) =
        some ⟨some ([0, 1].map Int.ofNat), some ts⟩ ∧
      GreedyChain ⟨2, [0, 0], [5, 5], [20, 20], [1, 1], [1, 1], [[0, 3], [3, 0]]⟩
        none [0, 1] ts ∧
      ∀ i < ts.length, ts.getD i 0 ≤
        ([20, 20] : List ℤ).getD (([0, 1] : List ℕ).getD i 0) 0 :=
  claim_C10 _ [0, 1] (fun _ lo _ => lo) (by decide) (by decide)
    (fun _ lo _ h => ⟨le_refl lo, h⟩)

end AircraftLanding
